import Mathlib

/-!
Verification of the cross-file import analysis of `remove_unused_imports`
(`src/remove_unused_imports/_cross_file.py`).

The embedding translates `CrossFileAnalyzer` and its helpers into Lean.
Python dictionaries are modelled as association lists (which preserve the
insertion order Python dictionaries guarantee), Python sets of names and of
paths as duplicate-free lists built by insertion (`dedupAppend`), and the
mutable `all_removed: defaultdict[Path, set[str]]` as a total function
`Path → List String` defaulting to the empty list.  Python set iteration
order is not deterministic across processes (string hashing is randomized),
so wherever a set's iteration order can reach an output list the enumeration
is an explicit parameter (`setOrder`).

Parts of the repository that `_cross_file.py` depends on but that are not
under `src/` (`_data.py`, `_graph.py`, `_detection.py`) are modelled from the
spec; each such definition carries a doc comment starting with
`Modelled from the spec:`.
-/

namespace RemoveUnusedImports

/-- File paths (`pathlib.Path`) are modelled as strings. -/
abbrev Path := String

/-- Modelled from the spec: `ImportInfo` (the spec's `ImportBinding`, defined
in `_data.py`, which is absent from `src/`).  `_cross_file.py` only reads the
bound local name (`imp.name`); `line` stands for the position metadata and
lets two bindings of the same name be distinct values. -/
structure ImportInfo where
  name : String
  line : Nat
deriving DecidableEq

/-- Modelled from the spec: `ModuleInfo` (defined in `_data.py`, absent from
`src/`).  `imports` is the list of module-scope import bindings,
`defined_names` the names bound by module-scope definitions, and `exports`
the explicit `__all__` list when present — the spec states it is absent when
there is no `__all__`, and that absent is distinct from empty. -/
structure ModuleInfo where
  imports : List ImportInfo
  defined_names : List String
  exports : Option (List String)
deriving DecidableEq

/-- Modelled from the spec: `ImportEdge` (defined in `_graph.py`, absent from
`src/`): one edge of the import graph, with `imported` absent for edges that
resolve outside the project. -/
structure ImportEdge where
  importer : Path
  imported : Option Path
  module_name : String
  names : List String
  is_external : Bool
deriving DecidableEq

/-- `ImplicitReexport` from `_data.py` (absent from `src/`), as consumed and
constructed by `_cross_file.py`: a name imported from `source_file` by the
files in `used_by` while not listed in `source_file`'s `__all__`. -/
structure ImplicitReexport where
  source_file : Path
  import_name : String
  used_by : List Path
deriving DecidableEq

/-- Modelled from the spec: `ImportGraph` (defined in `_graph.py`, absent from
`src/`).  `nodes` is the dictionary mapping each project file to its
`ModuleInfo`, `edges` the list of import edges.  `cycles` holds the output of
`find_cycles()`; no claim examines its internals, so it is carried as
precomputed data of the graph (the spec specifies it as a canonicalized,
deterministic function of the graph). -/
structure ImportGraph where
  nodes : List (Path × ModuleInfo)
  edges : List ImportEdge
  cycles : List (List Path)
deriving DecidableEq

/-- `CrossFileResult` (`_cross_file.py`, lines 15-29). -/
structure CrossFileResult where
  unused_imports : List (Path × List ImportInfo)
  implicit_reexports : List ImplicitReexport
  external_usage : List (String × List Path)
  circular_imports : List (List Path)
deriving DecidableEq

/-- Association-list lookup, modelling Python `d[k]` / `k in d`. -/
def assocFind {α β : Type} [DecidableEq α] : List (α × β) → α → Option β
  | [], _ => none
  | p :: rest, k => if p.1 = k then some p.2 else assocFind rest k

/-- Lookup in a map of sets with the empty set as default, modelling
`d.get(k, set())`. -/
def assocGetD {α β : Type} [DecidableEq α] (m : List (α × List β)) (k : α) : List β :=
  (assocFind m k).getD []

/-- Python `s.add(v)` on a set modelled as a duplicate-free list. -/
def dedupAppend {β : Type} [DecidableEq β] (s : List β) (v : β) : List β :=
  if v ∈ s then s else s ++ [v]

/-- Python `d[k].add(v)` on a `defaultdict[α, set[β]]` modelled as an
association list of duplicate-free lists. -/
def assocAdd {α β : Type} [DecidableEq α] [DecidableEq β] :
    List (α × List β) → α → β → List (α × List β)
  | [], k, v => [(k, [v])]
  | p :: rest, k, v =>
    if p.1 = k then (p.1, dedupAppend p.2 v) :: rest else p :: assocAdd rest k v

/-- The running removal map `all_removed`, a `defaultdict(set)` modelled as a
total function defaulting to the empty set. -/
abbrev RMap := Path → List String

/-- Pointwise update of the removal map. -/
def updateMap (r : RMap) (k : Path) (v : List String) : RMap :=
  fun k' => if k' = k then v else r k'

/-- Modelled from the spec: `ImportGraph.get_importers` (the spec's
`importers_of(file)`, defined in `_graph.py`, absent from `src/`): the edges
whose imported file is the given file. -/
def getImporters (g : ImportGraph) (f : Path) : List ImportEdge :=
  g.edges.filter (fun e => decide (e.imported = some f))

/-- `_get_single_file_unused` (`_cross_file.py`, lines 99-113).  Reading a
file's text (which raises `OSError`/`UnicodeDecodeError` on failure, caught
and turned into a skip) is modelled by the abstract `readText`, a read
failure being `none`; `find_unused_imports` (from `_detection.py`, absent
from `src/`) is the abstract `fui`. -/
def getSingleFileUnused (readText : Path → Option String)
    (fui : String → List ImportInfo)
    (nodes : List (Path × ModuleInfo)) : List (Path × List ImportInfo) :=
  nodes.filterMap (fun pm =>
    match readText pm.1 with
    | none => none
    | some src =>
      if fui src = [] then none else some (pm.1, fui src))

/-- Body of the per-edge loop of `_find_reexported_imports`
(`_cross_file.py`, lines 132-162): skip external or unresolved edges, drop
names virtually removed from the importer, skip edges whose target is not a
graph node, and record each remaining name that is an import binding of the
target file and not defined there. -/
def reexInsert (nodes : List (Path × ModuleInfo)) (removed : RMap)
    (reex : List (Path × List String)) (e : ImportEdge) : List (Path × List String) :=
  if e.is_external then reex else
  match e.imported with
  | none => reex
  | some f =>
    let active := e.names.filter (fun n => decide (n ∉ removed e.importer))
    if active = [] then reex else
    match assocFind nodes f with
    | none => reex
    | some mi =>
      active.foldl (fun m n =>
        if n ∈ mi.imports.map ImportInfo.name ∧ n ∉ mi.defined_names then
          assocAdd m f n
        else m) reex

/-- `_find_reexported_imports` (`_cross_file.py`, lines 115-164). -/
def findReexportedImports (g : ImportGraph) (removed : RMap) :
    List (Path × List String) :=
  g.edges.foldl (reexInsert g.nodes removed) []

/-- Modelled from the spec: the membership test `name not in exports` of
`_find_implicit_reexports` over the spec-modelled optional export list
(`_data.py` is absent from `src/`).  The spec fixes the default policy to
surface only the explicit-`__all__` case, so a name counts as outside the
exports exactly when an `__all__` exists and omits it. -/
def notInExports (exports : Option (List String)) (name : String) : Bool :=
  match exports with
  | none => false
  | some l => decide (name ∉ l)

/-- The `used_by` set collected for one implicit re-export
(`_cross_file.py`, lines 183-186). -/
def usedBy (g : ImportGraph) (f : Path) (name : String) : List Path :=
  (getImporters g f).foldl
    (fun s e => if name ∈ e.names then dedupAppend s e.importer else s) []

/-- `_find_implicit_reexports` (`_cross_file.py`, lines 166-196).
`setOrder` supplies the iteration order of the Python set
`reexported_names` (line 179), which is not fixed by the language. -/
def findImplicitReexports (setOrder : List String → List String)
    (g : ImportGraph) (reexported : List (Path × List String)) :
    List ImplicitReexport :=
  (reexported.map (fun fs =>
    match assocFind g.nodes fs.1 with
    | none => []
    | some mi =>
      (setOrder fs.2).filterMap (fun name =>
        if notInExports mi.exports name then
          some { source_file := fs.1, import_name := name,
                 used_by := usedBy g fs.1 name }
        else none))).flatten

/-- `_aggregate_external_usage` (`_cross_file.py`, lines 198-206). -/
def aggregateExternalUsage (edges : List ImportEdge) : List (String × List Path) :=
  edges.foldl
    (fun usage e =>
      if e.is_external then assocAdd usage e.module_name e.importer else usage) []

/-- One item of the cascade's inner loop (`_cross_file.py`, lines 71-75):
a name unused in `fp` that is neither re-exported nor already removed is
added to the removal map and the `changed` flag is set. -/
def passStep (reex : List (Path × List String)) (fp : Path)
    (acc : RMap × Bool) (imp : ImportInfo) : RMap × Bool :=
  if imp.name ∈ assocGetD reex fp then acc
  else if imp.name ∈ acc.1 fp then acc
  else (updateMap acc.1 fp (acc.1 fp ++ [imp.name]), true)

/-- One iteration of the fixed-point `while` loop (`_cross_file.py`,
lines 62-75): re-exports are computed once against the map at the start of
the iteration, then every single-file unused binding is examined (reads of
`all_removed` see the additions already made within the iteration, as the
Python dictionary mutation does). -/
def cascadePass (g : ImportGraph) (sfu : List (Path × List ImportInfo))
    (r0 : RMap) : RMap × Bool :=
  let reex := findReexportedImports g r0
  sfu.foldl (fun acc pu => pu.2.foldl (passStep reex pu.1) acc) (r0, false)

/-- The fixed-point `while changed` loop, fuel-indexed (the fuel used by
`analyze` is proved sufficient: see the C6 development). -/
def cascadeLoop (g : ImportGraph) (sfu : List (Path × List ImportInfo)) :
    Nat → RMap → RMap
  | 0, r => r
  | n + 1, r =>
    let pr := cascadePass g sfu r
    if pr.2 then cascadeLoop g sfu n pr.1 else pr.1

/-- Total number of single-file unused bindings across all files. -/
def totalUnused (sfu : List (Path × List ImportInfo)) : Nat :=
  (sfu.map (fun pu => pu.2.length)).sum

/-- The stable removal map `all_removed` reached by the cascade. -/
def analyzeRemoved (g : ImportGraph) (sfu : List (Path × List ImportInfo)) : RMap :=
  cascadeLoop g sfu (totalUnused sfu + 1) (fun _ => [])

/-- The removal map after exactly `k` iterations of the fixed-point loop. -/
def removedIter (g : ImportGraph) (sfu : List (Path × List ImportInfo)) :
    Nat → RMap
  | 0 => fun _ => []
  | k + 1 => (cascadePass g sfu (removedIter g sfu k)).1

/-- `CrossFileAnalyzer.analyze` (`_cross_file.py`, lines 38-97).  The
`unused_imports` dictionary is built by filtering each file's single-file
unused list through the stable removal map; `analyze` iterates
`all_removed.items()`, whose keys are those of `single_file_unused` (possibly
in a different insertion order, which Python dictionary equality ignores),
with files whose filtered list is empty omitted either way. -/
def analyze (setOrder : List String → List String)
    (readText : Path → Option String) (fui : String → List ImportInfo)
    (g : ImportGraph) : CrossFileResult :=
  let sfu := getSingleFileUnused readText fui g.nodes
  let removed := analyzeRemoved g sfu
  { unused_imports := sfu.filterMap (fun pu =>
      if pu.2.filter (fun imp => decide (imp.name ∈ removed pu.1)) = []
      then none
      else some (pu.1, pu.2.filter (fun imp => decide (imp.name ∈ removed pu.1))))
    implicit_reexports :=
      findImplicitReexports setOrder g (findReexportedImports g removed)
    external_usage := aggregateExternalUsage g.edges
    circular_imports := g.cycles }

/-- Potential of the cascade: the number of single-file unused binding
occurrences not yet in the removal map. -/
def potSize (sfu : List (Path × List ImportInfo)) (r : RMap) : Nat :=
  (sfu.map (fun pu =>
    ((pu.2.map ImportInfo.name).filter (fun n => decide (n ∉ r pu.1))).length)).sum

/-- Total size of the removal map over the analyzed files. -/
def rSize (sfu : List (Path × List ImportInfo)) (r : RMap) : Nat :=
  (((sfu.map Prod.fst).dedup).map (fun f => (r f).length)).sum

/-- All single-file unused names recorded for file `f`. -/
def namesFor (sfu : List (Path × List ImportInfo)) (f : Path) : List String :=
  ((sfu.filter (fun pu => decide (pu.1 = f))).map
    (fun pu => pu.2.map ImportInfo.name)).flatten

/-! ### Membership characterizations of the map helpers -/

theorem mem_dedupAppend {β : Type} [DecidableEq β] (s : List β) (v a : β) :
    a ∈ dedupAppend s v ↔ a ∈ s ∨ a = v := by
  unfold dedupAppend
  by_cases h : v ∈ s
  · simp only [if_pos h]
    constructor
    · exact Or.inl
    · rintro (ha | rfl)
      · exact ha
      · exact h
  · simp [if_neg h]

theorem mem_assocGetD_assocAdd {α β : Type} [DecidableEq α] [DecidableEq β]
    (m : List (α × List β)) (k k' : α) (v a : β) :
    a ∈ assocGetD (assocAdd m k v) k' ↔ a ∈ assocGetD m k' ∨ (k = k' ∧ a = v) := by
  induction m with
  | nil =>
    by_cases h : k = k' <;>
      simp [assocAdd, assocGetD, assocFind, h]
  | cons p rest ih =>
    by_cases hp : p.1 = k
    · by_cases hk : p.1 = k'
      · have hkk : k = k' := hp ▸ hk
        simp [assocAdd, assocGetD, assocFind, hp, hk, hkk, mem_dedupAppend]
      · have hkk : ¬ (k = k') := fun h => hk (hp.trans h)
        simp [assocAdd, assocGetD, assocFind, hp, hk, hkk]
    · by_cases hk : p.1 = k'
      · have hkk : ¬ (k = k') := fun h => hp (h ▸ hk)
        have hkk' : ¬ (k' = k) := fun h => hkk h.symm
        simp [assocAdd, assocGetD, assocFind, hp, hk, hkk, hkk']
      · simpa [assocAdd, assocGetD, assocFind, hp, hk] using ih

theorem mem_assocGetD_guardFold {α β : Type} [DecidableEq α] [DecidableEq β]
    (P : β → Prop) [DecidablePred P] (f k : α) (active : List β)
    (init : List (α × List β)) (a : β) :
    a ∈ assocGetD
        (active.foldl (fun m n => if P n then assocAdd m f n else m) init) k ↔
      a ∈ assocGetD init k ∨ (f = k ∧ a ∈ active ∧ P a) := by
  induction active generalizing init with
  | nil => simp
  | cons n rest ih =>
    rw [List.foldl_cons, ih]
    by_cases hP : P n
    · rw [if_pos hP, mem_assocGetD_assocAdd]
      constructor
      · rintro ((h | ⟨rfl, rfl⟩) | ⟨rfl, ha, hPa⟩)
        · exact Or.inl h
        · exact Or.inr ⟨rfl, List.mem_cons_self _ _, hP⟩
        · exact Or.inr ⟨rfl, List.mem_cons_of_mem _ ha, hPa⟩
      · rintro (h | ⟨rfl, ha, hPa⟩)
        · exact Or.inl (Or.inl h)
        · rcases List.mem_cons.mp ha with rfl | ha
          · exact Or.inl (Or.inr ⟨rfl, rfl⟩)
          · exact Or.inr ⟨rfl, ha, hPa⟩
    · rw [if_neg hP]
      constructor
      · rintro (h | ⟨rfl, ha, hPa⟩)
        · exact Or.inl h
        · exact Or.inr ⟨rfl, List.mem_cons_of_mem _ ha, hPa⟩
      · rintro (h | ⟨rfl, ha, hPa⟩)
        · exact Or.inl h
        · rcases List.mem_cons.mp ha with rfl | ha
          · exact absurd hPa hP
          · exact Or.inr ⟨rfl, ha, hPa⟩

/-! ### Characterization of `_find_reexported_imports` -/

/-- The condition under which one edge makes name `n` re-exported from file
`f` (`_cross_file.py`, lines 132-162): the edge is internal and resolved to
the graph node `f`, carries `n`, `n` is not virtually removed from the
the importer, and `n` is an import binding of `f` not defined in `f`. -/
def edgeContrib (nodes : List (Path × ModuleInfo)) (removed : RMap)
    (e : ImportEdge) (f : Path) (n : String) : Prop :=
  e.is_external = false ∧ e.imported = some f ∧ n ∈ e.names ∧
    n ∉ removed e.importer ∧
    ∃ mi, assocFind nodes f = some mi ∧
      n ∈ mi.imports.map ImportInfo.name ∧ n ∉ mi.defined_names

theorem mem_assocGetD_reexInsert (nodes : List (Path × ModuleInfo))
    (removed : RMap) (reex : List (Path × List String)) (e : ImportEdge)
    (f : Path) (a : String) :
    a ∈ assocGetD (reexInsert nodes removed reex e) f ↔
      a ∈ assocGetD reex f ∨ edgeContrib nodes removed e f a := by
  unfold reexInsert edgeContrib
  cases hext : e.is_external with
  | true => simp [hext]
  | false =>
    simp only [hext, Bool.false_eq_true, if_false]
    cases himp : e.imported with
    | none => simp [himp]
    | some f' =>
      simp only [himp]
      by_cases hact :
          e.names.filter (fun n => decide (n ∉ removed e.importer)) = []
      · simp only [hact, if_pos rfl]
        constructor
        · exact Or.inl
        · rintro (h | ⟨-, hf, hn, hrem, -⟩)
          · exact h
          · have : a ∈ e.names.filter (fun n => decide (n ∉ removed e.importer)) :=
              List.mem_filter.mpr ⟨hn, by simpa using hrem⟩
            rw [hact] at this
            exact absurd this (List.not_mem_nil a)
      · rw [if_neg hact]
        cases hfind : assocFind nodes f' with
        | none =>
          constructor
          · exact Or.inl
          · rintro (h | ⟨-, hf, -, -, mi, hmi, -⟩)
            · exact h
            · have hff : f' = f := Option.some_inj.mp hf
              subst hff
              rw [hfind] at hmi
              simp at hmi
        | some mi =>
          rw [mem_assocGetD_guardFold]
          constructor
          · rintro (h | ⟨rfl, ha, hP⟩)
            · exact Or.inl h
            · have hm := List.mem_filter.mp ha
              exact Or.inr ⟨by simp [hext], by simp [himp], hm.1,
                by simpa using hm.2, mi, hfind, hP.1, hP.2⟩
          · rintro (h | ⟨-, hf, hn, hrem, mi', hmi', h1, h2⟩)
            · exact Or.inl h
            · have hff : f' = f := Option.some_inj.mp hf
              subst hff
              rw [hfind] at hmi'
              cases Option.some_inj.mp hmi'
              exact Or.inr ⟨rfl,
                List.mem_filter.mpr ⟨hn, by simpa using hrem⟩, h1, h2⟩

theorem mem_foldl_reexInsert (nodes : List (Path × ModuleInfo))
    (removed : RMap) (edges : List ImportEdge)
    (init : List (Path × List String)) (f : Path) (a : String) :
    a ∈ assocGetD (edges.foldl (reexInsert nodes removed) init) f ↔
      a ∈ assocGetD init f ∨ ∃ e ∈ edges, edgeContrib nodes removed e f a := by
  induction edges generalizing init with
  | nil => simp
  | cons e rest ih =>
    rw [List.foldl_cons, ih, mem_assocGetD_reexInsert]
    constructor
    · rintro ((h | hc) | ⟨e', he', hc⟩)
      · exact Or.inl h
      · exact Or.inr ⟨e, List.mem_cons_self _ _, hc⟩
      · exact Or.inr ⟨e', List.mem_cons_of_mem _ he', hc⟩
    · rintro (h | ⟨e', he', hc⟩)
      · exact Or.inl (Or.inl h)
      · rcases List.mem_cons.mp he' with rfl | he'
        · exact Or.inl (Or.inr hc)
        · exact Or.inr ⟨e', he', hc⟩

/-- Membership characterization of `_find_reexported_imports`. -/
theorem mem_findReexportedImports (g : ImportGraph) (removed : RMap)
    (f : Path) (a : String) :
    a ∈ assocGetD (findReexportedImports g removed) f ↔
      ∃ e ∈ g.edges, edgeContrib g.nodes removed e f a := by
  rw [findReexportedImports, mem_foldl_reexInsert]
  simp [assocGetD, assocFind]

/-- Growing the removal map can only shrink the re-export sets. -/
theorem findReexportedImports_antitone (g : ImportGraph) (r r' : RMap)
    (hsub : ∀ p, ∀ x ∈ r p, x ∈ r' p) (f : Path) (a : String)
    (h : a ∈ assocGetD (findReexportedImports g r') f) :
    a ∈ assocGetD (findReexportedImports g r) f := by
  rw [mem_findReexportedImports] at h ⊢
  rcases h with ⟨e, he, h1, h2, h3, h4, h5⟩
  exact ⟨e, he, h1, h2, h3, fun hmem => h4 (hsub _ _ hmem), h5⟩

/-! ### Claim C2 -/

/-- C2: for any removal map, `_find_reexported_imports` returns for each
file `f` exactly the set of names `n` such that some non-external graph edge
`(f', f, names)` exists whose imported file `f` is a graph node, with `n` in
`names`, `n` not in `Removed[f']`, `n` the name of some import binding of
`f`, and `n` not among `f`'s defined names; in particular a name both
defined and imported in `f` is never re-exported. -/
theorem claim_C2 (g : ImportGraph) (removed : RMap) (f : Path) (n : String) :
    (n ∈ assocGetD (findReexportedImports g removed) f ↔
      ∃ e ∈ g.edges, e.is_external = false ∧ e.imported = some f ∧
        n ∈ e.names ∧ n ∉ removed e.importer ∧
        ∃ mi, assocFind g.nodes f = some mi ∧
          n ∈ mi.imports.map ImportInfo.name ∧ n ∉ mi.defined_names) ∧
    (∀ mi, assocFind g.nodes f = some mi → n ∈ mi.defined_names →
      n ∉ assocGetD (findReexportedImports g removed) f) := by
  constructor
  · simpa [edgeContrib] using mem_findReexportedImports g removed f n
  · intro mi hmi hdef hmem
    rw [mem_findReexportedImports] at hmem
    rcases hmem with ⟨e, -, -, -, -, -, mi', hmi', -, hndef⟩
    rw [hmi] at hmi'
    cases Option.some_inj.mp hmi'
    exact hndef hdef

/-- The everywhere-empty removal map. -/
def rmEmpty : RMap := fun _ => []

/-- Example module for the C2 witness: imports `X` and `Z`, defines `Z`. -/
def egMiB : ModuleInfo :=
  { imports := [⟨"X", 1⟩, ⟨"Z", 2⟩], defined_names := ["Z"], exports := none }

/-- Example edge for the C2 witness: a file `a` imports `X` and `Z` from `b`. -/
def egEdgeC2 : ImportEdge :=
  { importer := "a", imported := some "b", module_name := "b",
    names := ["X", "Z"], is_external := false }

/-- Example graph for the C2 witness. -/
def egGraphC2 : ImportGraph :=
  { nodes := [("b", egMiB)], edges := [egEdgeC2], cycles := [] }

theorem claim_C2_witness :
    "X" ∈ assocGetD (findReexportedImports egGraphC2 rmEmpty) "b" ∧
    "Z" ∉ assocGetD (findReexportedImports egGraphC2 rmEmpty) "b" :=
  ⟨(claim_C2 egGraphC2 rmEmpty "b" "X").1.mpr
      ⟨egEdgeC2, by decide, by decide, by decide, by decide, by decide,
        egMiB, by decide, by decide, by decide⟩,
    (claim_C2 egGraphC2 rmEmpty "b" "Z").2 egMiB (by decide) (by decide)⟩

/-! ### Cascade machinery -/

/-- The fold body of one cascade iteration, abstracted over the re-export
map computed at the start of the iteration. -/
def cascadeFold (reex : List (Path × List String))
    (sfu : List (Path × List ImportInfo)) (acc : RMap × Bool) : RMap × Bool :=
  sfu.foldl (fun acc pu => pu.2.foldl (passStep reex pu.1) acc) acc

theorem cascadePass_eq (g : ImportGraph) (sfu : List (Path × List ImportInfo))
    (r : RMap) :
    cascadePass g sfu r = cascadeFold (findReexportedImports g r) sfu (r, false) := rfl

theorem passStep_subset (reex : List (Path × List String)) (fp : Path)
    (acc : RMap × Bool) (imp : ImportInfo) (f : Path) (x : String)
    (hx : x ∈ acc.1 f) : x ∈ (passStep reex fp acc imp).1 f := by
  unfold passStep
  split
  · exact hx
  · split
    · exact hx
    · simp only [updateMap]
      by_cases hf : f = fp
      · subst hf
        simp [hx]
      · simp [hf, hx]

theorem innerFold_subset (reex : List (Path × List String)) (fp : Path)
    (u : List ImportInfo) (acc : RMap × Bool) (f : Path) (x : String)
    (hx : x ∈ acc.1 f) : x ∈ (u.foldl (passStep reex fp) acc).1 f := by
  induction u generalizing acc with
  | nil => exact hx
  | cons imp rest ih => exact ih _ (passStep_subset _ _ _ _ _ _ hx)

theorem cascadeFold_subset (reex : List (Path × List String))
    (sfu : List (Path × List ImportInfo)) (acc : RMap × Bool) (f : Path)
    (x : String) (hx : x ∈ acc.1 f) : x ∈ (cascadeFold reex sfu acc).1 f := by
  induction sfu generalizing acc with
  | nil => exact hx
  | cons pu rest ih => exact ih _ (innerFold_subset _ _ _ _ _ _ hx)

theorem cascadePass_subset (g : ImportGraph)
    (sfu : List (Path × List ImportInfo)) (r : RMap) (f : Path) (x : String)
    (hx : x ∈ r f) : x ∈ (cascadePass g sfu r).1 f := by
  rw [cascadePass_eq]
  exact cascadeFold_subset _ _ _ _ _ hx

theorem passStep_flag (reex : List (Path × List String)) (fp : Path)
    (acc : RMap × Bool) (imp : ImportInfo) (h : acc.2 = true) :
    (passStep reex fp acc imp).2 = true := by
  unfold passStep
  split
  · exact h
  · split
    · exact h
    · rfl

theorem innerFold_flag (reex : List (Path × List String)) (fp : Path)
    (u : List ImportInfo) (acc : RMap × Bool) (h : acc.2 = true) :
    (u.foldl (passStep reex fp) acc).2 = true := by
  induction u generalizing acc with
  | nil => exact h
  | cons imp rest ih => exact ih _ (passStep_flag _ _ _ _ h)

theorem cascadeFold_flag (reex : List (Path × List String))
    (sfu : List (Path × List ImportInfo)) (acc : RMap × Bool)
    (h : acc.2 = true) : (cascadeFold reex sfu acc).2 = true := by
  induction sfu generalizing acc with
  | nil => exact h
  | cons pu rest ih => exact ih _ (innerFold_flag _ _ _ _ h)

theorem passStep_flag_false (reex : List (Path × List String)) (fp : Path)
    (acc : RMap × Bool) (imp : ImportInfo)
    (h : (passStep reex fp acc imp).2 = false) :
    passStep reex fp acc imp = acc ∧ acc.2 = false ∧
      (imp.name ∈ assocGetD reex fp ∨ imp.name ∈ acc.1 fp) := by
  revert h
  unfold passStep
  split
  · intro h
    exact ⟨rfl, h, Or.inl (by assumption)⟩
  · split
    · intro h
      exact ⟨rfl, h, Or.inr (by assumption)⟩
    · intro h
      exact absurd h (by simp)

theorem innerFold_flag_false (reex : List (Path × List String)) (fp : Path)
    (u : List ImportInfo) (acc : RMap × Bool)
    (h : (u.foldl (passStep reex fp) acc).2 = false) :
    u.foldl (passStep reex fp) acc = acc ∧ acc.2 = false ∧
      ∀ imp ∈ u, imp.name ∈ assocGetD reex fp ∨ imp.name ∈ acc.1 fp := by
  induction u generalizing acc with
  | nil => exact ⟨rfl, h, by simp⟩
  | cons imp rest ih =>
    rw [List.foldl_cons] at h ⊢
    rcases ih _ h with ⟨heq, hfl, hall⟩
    rcases passStep_flag_false _ _ _ _ hfl with ⟨hstep, hacc, hcond⟩
    rw [hstep] at heq hall ⊢
    refine ⟨heq, hacc, ?_⟩
    · intro i hi
      rcases List.mem_cons.mp hi with rfl | hi
      · exact hcond
      · exact hall i hi

theorem cascadeFold_flag_false (reex : List (Path × List String))
    (sfu : List (Path × List ImportInfo)) (acc : RMap × Bool)
    (h : (cascadeFold reex sfu acc).2 = false) :
    cascadeFold reex sfu acc = acc ∧ acc.2 = false ∧
      ∀ pu ∈ sfu, ∀ imp ∈ pu.2,
        imp.name ∈ assocGetD reex pu.1 ∨ imp.name ∈ acc.1 pu.1 := by
  induction sfu generalizing acc with
  | nil => exact ⟨rfl, h, by simp⟩
  | cons pu rest ih =>
    rw [cascadeFold, List.foldl_cons] at h ⊢
    rcases ih _ h with ⟨heq, hfl, hall⟩
    rcases innerFold_flag_false _ _ _ _ hfl with ⟨hstep, hacc, hcond⟩
    rw [hstep] at heq hall ⊢
    refine ⟨heq, hacc, ?_⟩
    intro q hq
    rcases List.mem_cons.mp hq with rfl | hq
    · exact hcond
    · exact hall q hq

/-- When an iteration of the cascade ends with `changed` still false, the
removal map is unchanged and every single-file unused binding is either
re-exported or already slated for removal. -/
theorem cascadePass_flag_false (g : ImportGraph)
    (sfu : List (Path × List ImportInfo)) (r : RMap)
    (h : (cascadePass g sfu r).2 = false) :
    (cascadePass g sfu r).1 = r ∧
      ∀ pu ∈ sfu, ∀ imp ∈ pu.2,
        imp.name ∈ assocGetD (findReexportedImports g r) pu.1 ∨
          imp.name ∈ r pu.1 := by
  rw [cascadePass_eq] at h ⊢
  rcases cascadeFold_flag_false _ _ _ h with ⟨heq, -, hall⟩
  exact ⟨by rw [heq], hall⟩

theorem innerFold_mem_of (reex : List (Path × List String)) (fp : Path)
    (u : List ImportInfo) (acc : RMap × Bool) (f : Path) (x : String)
    (hx : x ∈ (u.foldl (passStep reex fp) acc).1 f) :
    x ∈ acc.1 f ∨
      (f = fp ∧ (∃ imp ∈ u, imp.name = x) ∧ x ∉ assocGetD reex fp) := by
  induction u generalizing acc with
  | nil => exact Or.inl hx
  | cons imp rest ih =>
    rw [List.foldl_cons] at hx
    rcases ih _ hx with h | ⟨rfl, ⟨i, hi, hix⟩, hnre⟩
    · by_cases h1 : imp.name ∈ assocGetD reex fp
      · rw [passStep, if_pos h1] at h
        exact Or.inl h
      · by_cases h2 : imp.name ∈ acc.1 fp
        · rw [passStep, if_neg h1, if_pos h2] at h
          exact Or.inl h
        · rw [passStep, if_neg h1, if_neg h2] at h
          simp only [updateMap] at h
          by_cases hf : f = fp
          · subst hf
            rw [if_pos rfl] at h
            rcases List.mem_append.mp h with h | h
            · exact Or.inl h
            · have hx' : x = imp.name := by simpa using h
              subst hx'
              exact Or.inr ⟨rfl, ⟨imp, List.mem_cons_self _ _, rfl⟩, h1⟩
          · rw [if_neg hf] at h
            exact Or.inl h
    · exact Or.inr ⟨rfl, ⟨i, List.mem_cons_of_mem _ hi, hix⟩, hnre⟩

theorem cascadeFold_mem_of (reex : List (Path × List String))
    (sfu : List (Path × List ImportInfo)) (acc : RMap × Bool) (f : Path)
    (x : String) (hx : x ∈ (cascadeFold reex sfu acc).1 f) :
    x ∈ acc.1 f ∨
      ((∃ pu ∈ sfu, pu.1 = f ∧ ∃ imp ∈ pu.2, imp.name = x) ∧
        x ∉ assocGetD reex f) := by
  induction sfu generalizing acc with
  | nil => exact Or.inl hx
  | cons pu rest ih =>
    rw [cascadeFold, List.foldl_cons] at hx
    rcases ih _ hx with h | ⟨⟨q, hq, hqf, himp⟩, hnre⟩
    · rcases innerFold_mem_of _ _ _ _ _ _ h with h' | ⟨rfl, himp, hnre⟩
      · exact Or.inl h'
      · exact Or.inr ⟨⟨pu, List.mem_cons_self _ _, rfl, himp⟩, hnre⟩
    · exact Or.inr ⟨⟨q, List.mem_cons_of_mem _ hq, hqf, himp⟩, hnre⟩

/-- Every name in the removal map after one cascade iteration was either
already there or is a single-file unused name of that file that was not
re-exported at the start of the iteration. -/
theorem cascadePass_mem_of (g : ImportGraph)
    (sfu : List (Path × List ImportInfo)) (r : RMap) (f : Path) (x : String)
    (hx : x ∈ (cascadePass g sfu r).1 f) :
    x ∈ r f ∨
      ((∃ pu ∈ sfu, pu.1 = f ∧ ∃ imp ∈ pu.2, imp.name = x) ∧
        x ∉ assocGetD (findReexportedImports g r) f) := by
  rw [cascadePass_eq] at hx
  exact cascadeFold_mem_of _ _ _ _ _ hx

theorem innerFold_flag_true (reex : List (Path × List String)) (fp : Path)
    (u : List ImportInfo) (acc : RMap × Bool)
    (h : (u.foldl (passStep reex fp) acc).2 = true) :
    acc.2 = true ∨
      ∃ f x, x ∈ (u.foldl (passStep reex fp) acc).1 f ∧ x ∉ acc.1 f := by
  induction u generalizing acc with
  | nil => exact Or.inl h
  | cons imp rest ih =>
    rw [List.foldl_cons] at h ⊢
    rcases ih _ h with h' | ⟨f, x, hin, hnin⟩
    · by_cases h1 : imp.name ∈ assocGetD reex fp
      · rw [passStep, if_pos h1] at h'
        exact Or.inl h'
      · by_cases h2 : imp.name ∈ acc.1 fp
        · rw [passStep, if_neg h1, if_pos h2] at h'
          exact Or.inl h'
        · refine Or.inr ⟨fp, imp.name, ?_, h2⟩
          apply innerFold_subset
          rw [passStep, if_neg h1, if_neg h2]
          simp [updateMap]
    · exact Or.inr ⟨f, x, hin, fun hm => hnin (passStep_subset _ _ _ _ _ _ hm)⟩

theorem cascadeFold_flag_true (reex : List (Path × List String))
    (sfu : List (Path × List ImportInfo)) (acc : RMap × Bool)
    (h : (cascadeFold reex sfu acc).2 = true) :
    acc.2 = true ∨
      ∃ f x, x ∈ (cascadeFold reex sfu acc).1 f ∧ x ∉ acc.1 f := by
  induction sfu generalizing acc with
  | nil => exact Or.inl h
  | cons pu rest ih =>
    rw [cascadeFold, List.foldl_cons] at h ⊢
    rcases ih _ h with h' | ⟨f, x, hin, hnin⟩
    · rcases innerFold_flag_true _ _ _ _ h' with h'' | ⟨f, x, hin, hnin⟩
      · exact Or.inl h''
      · exact Or.inr ⟨f, x, cascadeFold_subset _ _ _ _ _ hin, hnin⟩
    · exact Or.inr
        ⟨f, x, hin, fun hm => hnin (innerFold_subset _ _ _ _ _ _ hm)⟩

/-- An iteration that reports `changed` has genuinely added some name. -/
theorem cascadePass_flag_true (g : ImportGraph)
    (sfu : List (Path × List ImportInfo)) (r : RMap)
    (h : (cascadePass g sfu r).2 = true) :
    ∃ f x, x ∈ (cascadePass g sfu r).1 f ∧ x ∉ r f := by
  rw [cascadePass_eq] at h ⊢
  rcases cascadeFold_flag_true _ _ _ h with h' | hw
  · exact absurd h' (by simp)
  · exact hw

theorem passStep_nodup (reex : List (Path × List String)) (fp : Path)
    (acc : RMap × Bool) (imp : ImportInfo)
    (h : ∀ f, (acc.1 f).Nodup) (f : Path) :
    ((passStep reex fp acc imp).1 f).Nodup := by
  by_cases h1 : imp.name ∈ assocGetD reex fp
  · rw [passStep, if_pos h1]
    exact h f
  · by_cases h2 : imp.name ∈ acc.1 fp
    · rw [passStep, if_neg h1, if_pos h2]
      exact h f
    · rw [passStep, if_neg h1, if_neg h2]
      simp only [updateMap]
      by_cases hf : f = fp
      · subst hf
        rw [if_pos rfl]
        refine (h _).append (List.nodup_singleton _) ?_
        intro a ha hax
        rw [List.mem_singleton] at hax
        subst hax
        exact h2 ha
      · rw [if_neg hf]
        exact h f

theorem innerFold_nodup (reex : List (Path × List String)) (fp : Path)
    (u : List ImportInfo) (acc : RMap × Bool)
    (h : ∀ f, (acc.1 f).Nodup) (f : Path) :
    ((u.foldl (passStep reex fp) acc).1 f).Nodup := by
  induction u generalizing acc with
  | nil => exact h f
  | cons imp rest ih => exact ih _ (passStep_nodup _ _ _ _ h)

theorem cascadeFold_nodup (reex : List (Path × List String))
    (sfu : List (Path × List ImportInfo)) (acc : RMap × Bool)
    (h : ∀ f, (acc.1 f).Nodup) (f : Path) :
    ((cascadeFold reex sfu acc).1 f).Nodup := by
  induction sfu generalizing acc with
  | nil => exact h f
  | cons pu rest ih => exact ih _ (innerFold_nodup _ _ _ _ h)

theorem cascadePass_nodup (g : ImportGraph)
    (sfu : List (Path × List ImportInfo)) (r : RMap)
    (h : ∀ f, (r f).Nodup) (f : Path) : ((cascadePass g sfu r).1 f).Nodup := by
  rw [cascadePass_eq]
  exact cascadeFold_nodup _ _ _ h f

theorem cascadeLoop_nodup (g : ImportGraph)
    (sfu : List (Path × List ImportInfo)) (n : Nat) (r : RMap)
    (h : ∀ f, (r f).Nodup) (f : Path) : ((cascadeLoop g sfu n r) f).Nodup := by
  induction n generalizing r with
  | zero => exact h f
  | succ n ih =>
    rw [cascadeLoop]
    by_cases hch : (cascadePass g sfu r).2 = true
    · simp only [hch, if_true]
      exact ih _ (cascadePass_nodup g sfu r h)
    · simp only [Bool.not_eq_true] at hch
      simp only [hch, Bool.false_eq_true, if_false]
      exact cascadePass_nodup g sfu r h f

/-! ### Termination of the fixed-point loop -/

theorem length_filter_lt {α : Type} (l : List α) (p q : α → Bool)
    (hpq : ∀ a, p a = true → q a = true) (a0 : α) (ha0 : a0 ∈ l)
    (hq : q a0 = true) (hp : p a0 = false) :
    (l.filter p).length < (l.filter q).length := by
  induction l with
  | nil => cases ha0
  | cons b rest ih =>
    rcases List.mem_cons.mp ha0 with rfl | hmem
    · rw [List.filter_cons_of_neg (by simp [hp]), List.filter_cons_of_pos hq]
      simpa using Nat.lt_succ_of_le (List.monotone_filter_right rest hpq).length_le
    · cases hpb : p b with
      | true =>
        rw [List.filter_cons_of_pos hpb, List.filter_cons_of_pos (hpq b hpb)]
        simpa using Nat.succ_lt_succ (ih hmem)
      | false =>
        rw [List.filter_cons_of_neg (by simp [hpb])]
        cases hqb : q b with
        | true =>
          rw [List.filter_cons_of_pos hqb]
          simpa using Nat.lt_succ_of_lt (ih hmem)
        | false =>
          rw [List.filter_cons_of_neg (by simp [hqb])]
          exact ih hmem

theorem map_sum_le {α : Type} (l : List α) (f g : α → Nat)
    (h : ∀ a ∈ l, f a ≤ g a) : (l.map f).sum ≤ (l.map g).sum := by
  induction l with
  | nil => simp
  | cons b rest ih =>
    simp only [List.map_cons, List.sum_cons]
    exact Nat.add_le_add (h b (List.mem_cons_self _ _))
      (ih fun a ha => h a (List.mem_cons_of_mem _ ha))

theorem map_sum_lt {α : Type} (l : List α) (f g : α → Nat)
    (h : ∀ a ∈ l, f a ≤ g a) (a0 : α) (ha0 : a0 ∈ l) (hlt : f a0 < g a0) :
    (l.map f).sum < (l.map g).sum := by
  induction l with
  | nil => cases ha0
  | cons b rest ih =>
    simp only [List.map_cons, List.sum_cons]
    rcases List.mem_cons.mp ha0 with rfl | hmem
    · exact Nat.add_lt_add_of_lt_of_le hlt
        (map_sum_le rest f g fun a ha => h a (List.mem_cons_of_mem _ ha))
    · exact Nat.add_lt_add_of_le_of_lt (h b (List.mem_cons_self _ _))
        (ih (fun a ha => h a (List.mem_cons_of_mem _ ha)) hmem)

/-- An iteration that reports `changed` strictly shrinks the number of
unused-binding occurrences not yet slated for removal. -/
theorem cascadePass_pot_lt (g : ImportGraph)
    (sfu : List (Path × List ImportInfo)) (r : RMap)
    (h : (cascadePass g sfu r).2 = true) :
    potSize sfu (cascadePass g sfu r).1 < potSize sfu r := by
  rcases cascadePass_flag_true g sfu r h with ⟨f, x, hin, hnin⟩
  rcases cascadePass_mem_of g sfu r f x hin with hmem
    | ⟨⟨pu, hpu, hpf, imp, himp, hname⟩, -⟩
  · exact absurd hmem hnin
  · subst hpf
    subst hname
    unfold potSize
    apply map_sum_lt
    · intro q hq
      apply List.Sublist.length_le
      apply List.monotone_filter_right
      intro a ha
      simp only [decide_eq_true_eq] at ha ⊢
      exact fun hmem => ha (cascadePass_subset g sfu r q.1 a hmem)
    · exact hpu
    · apply length_filter_lt _ _ _ ?_ imp.name
        (List.mem_map.mpr ⟨imp, himp, rfl⟩) (by simpa using hnin)
        (by simpa using hin)
      intro a ha
      simp only [decide_eq_true_eq] at ha ⊢
      exact fun hmem => ha (cascadePass_subset g sfu r pu.1 a hmem)

/-- With fuel exceeding the potential, the loop reaches a state whose next
iteration leaves `changed` false: the fixed point. -/
theorem cascadeLoop_stable (g : ImportGraph)
    (sfu : List (Path × List ImportInfo)) (n : Nat) (r : RMap)
    (h : potSize sfu r < n) :
    (cascadePass g sfu (cascadeLoop g sfu n r)).2 = false := by
  induction n generalizing r with
  | zero => exact absurd h (Nat.not_lt_zero _)
  | succ n ih =>
    rw [cascadeLoop]
    cases hch : (cascadePass g sfu r).2 with
    | false =>
      simp only [hch, Bool.false_eq_true, if_false]
      have heq := (cascadePass_flag_false g sfu r hch).1
      rw [heq]
      exact hch
    | true =>
      simp only [hch, if_true]
      apply ih
      have := cascadePass_pot_lt g sfu r hch
      omega

theorem potSize_empty (sfu : List (Path × List ImportInfo)) :
    potSize sfu (fun _ => []) = totalUnused sfu := by
  unfold potSize totalUnused
  congr 1
  apply List.map_congr_left
  intro pu _
  rw [List.filter_eq_self.mpr (by intro a _; simp), List.length_map]

/-- The fuel `analyze` supplies is sufficient: the removal map it computes
is a true fixed point of the cascade iteration. -/
theorem analyzeRemoved_stable (g : ImportGraph)
    (sfu : List (Path × List ImportInfo)) :
    (cascadePass g sfu (analyzeRemoved g sfu)).2 = false := by
  unfold analyzeRemoved
  apply cascadeLoop_stable
  rw [potSize_empty]
  exact Nat.lt_succ_self _

/-! ### Removed names are never re-exported under the final map -/

theorem cascadePass_inv (g : ImportGraph)
    (sfu : List (Path × List ImportInfo)) (r : RMap)
    (hinv : ∀ f n, n ∈ r f → n ∉ assocGetD (findReexportedImports g r) f)
    (f : Path) (n : String) (hn : n ∈ (cascadePass g sfu r).1 f) :
    n ∉ assocGetD (findReexportedImports g (cascadePass g sfu r).1) f := by
  have hsub : ∀ p, ∀ x ∈ r p, x ∈ (cascadePass g sfu r).1 p :=
    fun p x hx => cascadePass_subset g sfu r p x hx
  intro hmem
  have hmem' := findReexportedImports_antitone g r _ hsub f n hmem
  rcases cascadePass_mem_of g sfu r f n hn with h | ⟨-, hnre⟩
  · exact hinv f n h hmem'
  · exact hnre hmem'

theorem cascadeLoop_inv (g : ImportGraph)
    (sfu : List (Path × List ImportInfo)) (k : Nat) (r : RMap)
    (hinv : ∀ f n, n ∈ r f → n ∉ assocGetD (findReexportedImports g r) f)
    (f : Path) (n : String) (hn : n ∈ cascadeLoop g sfu k r f) :
    n ∉ assocGetD (findReexportedImports g (cascadeLoop g sfu k r)) f := by
  induction k generalizing r with
  | zero => exact hinv f n hn
  | succ k ih =>
    rw [cascadeLoop] at hn ⊢
    cases hch : (cascadePass g sfu r).2 with
    | true =>
      simp only [hch, if_true] at hn ⊢
      exact ih _ (cascadePass_inv g sfu r hinv) hn
    | false =>
      simp only [hch, Bool.false_eq_true, if_false] at hn ⊢
      exact cascadePass_inv g sfu r hinv f n hn

/-- Every name in the stable removal map fails the re-export test computed
against that same final map. -/
theorem analyzeRemoved_inv (g : ImportGraph)
    (sfu : List (Path × List ImportInfo)) (f : Path) (n : String)
    (hn : n ∈ analyzeRemoved g sfu f) :
    n ∉ assocGetD (findReexportedImports g (analyzeRemoved g sfu)) f := by
  unfold analyzeRemoved at hn ⊢
  exact cascadeLoop_inv g sfu _ _ (fun f n hn => absurd hn (by simp)) f n hn

/-! ### Bounding the removal map by the single-file unused names -/

theorem mem_namesFor (sfu : List (Path × List ImportInfo)) (f : Path)
    (x : String) :
    x ∈ namesFor sfu f ↔
      ∃ pu ∈ sfu, pu.1 = f ∧ ∃ imp ∈ pu.2, imp.name = x := by
  unfold namesFor
  simp only [List.mem_flatten, List.mem_map, List.mem_filter,
    decide_eq_true_eq]
  constructor
  · rintro ⟨l, ⟨pu, ⟨hpu, hpf⟩, rfl⟩, hx⟩
    rcases List.mem_map.mp hx with ⟨imp, himp, rfl⟩
    exact ⟨pu, hpu, hpf, imp, himp, rfl⟩
  · rintro ⟨pu, hpu, hpf, imp, himp, rfl⟩
    exact ⟨pu.2.map ImportInfo.name, ⟨pu, ⟨hpu, hpf⟩, rfl⟩,
      List.mem_map.mpr ⟨imp, himp, rfl⟩⟩

theorem cascadePass_src (g : ImportGraph)
    (sfu : List (Path × List ImportInfo)) (r : RMap)
    (hsrc : ∀ f, ∀ x ∈ r f, x ∈ namesFor sfu f) (f : Path) (x : String)
    (hx : x ∈ (cascadePass g sfu r).1 f) : x ∈ namesFor sfu f := by
  rcases cascadePass_mem_of g sfu r f x hx with h
    | ⟨⟨pu, hpu, hpf, imp, himp, hname⟩, -⟩
  · exact hsrc f x h
  · exact (mem_namesFor sfu f x).mpr ⟨pu, hpu, hpf, imp, himp, hname⟩

theorem cascadeLoop_src (g : ImportGraph)
    (sfu : List (Path × List ImportInfo)) (k : Nat) (r : RMap)
    (hsrc : ∀ f, ∀ x ∈ r f, x ∈ namesFor sfu f) (f : Path) (x : String)
    (hx : x ∈ cascadeLoop g sfu k r f) : x ∈ namesFor sfu f := by
  induction k generalizing r with
  | zero => exact hsrc f x hx
  | succ k ih =>
    rw [cascadeLoop] at hx
    cases hch : (cascadePass g sfu r).2 with
    | true =>
      simp only [hch, if_true] at hx
      exact ih _ (fun f x h => cascadePass_src g sfu r hsrc f x h) hx
    | false =>
      simp only [hch, Bool.false_eq_true, if_false] at hx
      exact cascadePass_src g sfu r hsrc f x hx

theorem map_sum_add {α : Type} (l : List α) (f g : α → Nat) :
    (l.map (fun a => f a + g a)).sum = (l.map f).sum + (l.map g).sum := by
  induction l with
  | nil => simp
  | cons b rest ih =>
    simp only [List.map_cons, List.sum_cons, ih]
    omega

theorem map_sum_ite_single (K : List Path) (p : Path) (c : Nat)
    (hK : K.Nodup) : (K.map (fun f => if p = f then c else 0)).sum ≤ c := by
  induction K with
  | nil => simp
  | cons b rest ih =>
    simp only [List.map_cons, List.sum_cons]
    rcases List.nodup_cons.mp hK with ⟨hb, hrest⟩
    by_cases hpb : p = b
    · rw [if_pos hpb]
      have hzero : (rest.map (fun f => if p = f then c else 0)).sum = 0 := by
        apply List.sum_eq_zero
        intro y hy
        rcases List.mem_map.mp hy with ⟨f, hf, rfl⟩
        rw [if_neg (fun h => hb (by rw [hpb.symm.trans h]; exact hf))]
      omega
    · rw [if_neg hpb]
      simpa using ih hrest

theorem sum_namesFor_le (sfu : List (Path × List ImportInfo)) (K : List Path)
    (hK : K.Nodup) :
    (K.map (fun f => (namesFor sfu f).length)).sum ≤ totalUnused sfu := by
  induction sfu generalizing K with
  | nil =>
    simp [namesFor, totalUnused]
  | cons pu rest ih =>
    have hsplit : ∀ f : Path, (namesFor (pu :: rest) f).length
        = (if pu.1 = f then pu.2.length else 0) + (namesFor rest f).length := by
      intro f
      unfold namesFor
      by_cases hf : pu.1 = f
      · rw [List.filter_cons_of_pos (by simpa using hf), if_pos hf]
        simp
      · rw [List.filter_cons_of_neg (by simpa using hf), if_neg hf]
        simp
    calc (K.map (fun f => (namesFor (pu :: rest) f).length)).sum
        = (K.map (fun f =>
            (if pu.1 = f then pu.2.length else 0) + (namesFor rest f).length)).sum := by
          rw [List.map_congr_left (fun f _ => hsplit f)]
      _ = (K.map (fun f => if pu.1 = f then pu.2.length else 0)).sum +
            (K.map (fun f => (namesFor rest f).length)).sum := map_sum_add _ _ _
      _ ≤ pu.2.length + totalUnused rest :=
          Nat.add_le_add (map_sum_ite_single K pu.1 pu.2.length hK) (ih K hK)
      _ = totalUnused (pu :: rest) := by simp [totalUnused]

theorem rSize_le_totalUnused (sfu : List (Path × List ImportInfo)) (r : RMap)
    (hnd : ∀ f, (r f).Nodup) (hsrc : ∀ f, ∀ x ∈ r f, x ∈ namesFor sfu f) :
    rSize sfu r ≤ totalUnused sfu := by
  unfold rSize
  calc (((sfu.map Prod.fst).dedup).map (fun f => (r f).length)).sum
      ≤ (((sfu.map Prod.fst).dedup).map
          (fun f => (namesFor sfu f).length)).sum :=
        map_sum_le _ _ _ (fun f _ =>
          (List.subperm_of_subset (hnd f) (fun a ha => hsrc f a ha)).length_le)
    _ ≤ totalUnused sfu := sum_namesFor_le sfu _ (List.nodup_dedup _)

/-! ### Claims C5 and C6 -/

/-- C5: the cascade is monotone: for every file `f`, the removal map after
iteration `k+1` of the fixed-point loop is a superset of the removal map
after iteration `k`; names are only ever added, never removed. -/
theorem claim_C5 (g : ImportGraph) (sfu : List (Path × List ImportInfo))
    (k : Nat) (f : Path) :
    removedIter g sfu k f ⊆ removedIter g sfu (k + 1) f := by
  intro x hx
  rw [removedIter]
  exact cascadePass_subset _ _ _ _ _ hx

/-- C6: the fixed-point loop terminates on every input: (1) the total size
of the removal map strictly increases on every iteration that sets
`changed`; (2) it is bounded above by the total number of single-file
unused imports across all files; (3) with the fuel `analyze` uses, the loop
reaches a state whose next iteration reports no change. -/
theorem claim_C6 (g : ImportGraph) (sfu : List (Path × List ImportInfo)) :
    (∀ r : RMap, (∀ f, (r f).Nodup) → (cascadePass g sfu r).2 = true →
      rSize sfu r < rSize sfu (cascadePass g sfu r).1) ∧
    (∀ k, rSize sfu (cascadeLoop g sfu k (fun _ => [])) ≤ totalUnused sfu) ∧
    (cascadePass g sfu (analyzeRemoved g sfu)).2 = false := by
  refine ⟨?_, ?_, analyzeRemoved_stable g sfu⟩
  · intro r hnd hch
    rcases cascadePass_flag_true g sfu r hch with ⟨f, x, hin, hnin⟩
    rcases cascadePass_mem_of g sfu r f x hin with hmem
      | ⟨⟨pu, hpu, hpf, imp, himp, hname⟩, -⟩
    · exact absurd hmem hnin
    · subst hpf
      subst hname
      unfold rSize
      apply map_sum_lt
      · intro q _
        exact (List.subperm_of_subset (hnd q)
          (fun a ha => cascadePass_subset g sfu r q a ha)).length_le
      · exact List.mem_dedup.mpr (List.mem_map.mpr ⟨pu, hpu, rfl⟩)
      · have hsp : List.Subperm (imp.name :: r pu.1)
            ((cascadePass g sfu r).1 pu.1) := by
          apply List.subperm_of_subset
          · exact List.nodup_cons.mpr ⟨hnin, hnd pu.1⟩
          · intro a ha
            rcases List.mem_cons.mp ha with rfl | ha
            · exact hin
            · exact cascadePass_subset g sfu r pu.1 a ha
        have h2 := hsp.length_le
        simp only [List.length_cons] at h2
        omega
  · intro k
    exact rSize_le_totalUnused sfu _
      (cascadeLoop_nodup g sfu k _ (fun f => List.nodup_nil) )
      (fun f x hx => cascadeLoop_src g sfu k _ (fun f x hx => absurd hx (by simp)) f x hx)

/-! ### The `unused_imports` dictionary of the result -/

theorem analyze_unused_imports (setOrder : List String → List String)
    (rt : Path → Option String) (fui : String → List ImportInfo)
    (g : ImportGraph) :
    (analyze setOrder rt fui g).unused_imports =
      (getSingleFileUnused rt fui g.nodes).filterMap (fun pu =>
        if pu.2.filter (fun imp => decide
            (imp.name ∈ analyzeRemoved g (getSingleFileUnused rt fui g.nodes) pu.1)) = []
        then none
        else some (pu.1, pu.2.filter (fun imp => decide
          (imp.name ∈ analyzeRemoved g (getSingleFileUnused rt fui g.nodes) pu.1)))) := rfl

theorem getSingleFileUnused_keys (rt : Path → Option String)
    (fui : String → List ImportInfo) (nodes : List (Path × ModuleInfo))
    (f : Path)
    (h : f ∈ (getSingleFileUnused rt fui nodes).map Prod.fst) :
    f ∈ nodes.map Prod.fst := by
  rcases List.mem_map.mp h with ⟨pu, hpu, rfl⟩
  rcases List.mem_filterMap.mp hpu with ⟨pm, hpm, hsome⟩
  refine List.mem_map.mpr ⟨pm, hpm, ?_⟩
  split at hsome
  · cases hsome
  · split at hsome
    · cases hsome
    · exact congrArg Prod.fst (Option.some_inj.mp hsome)

theorem getSingleFileUnused_keys_nodup (rt : Path → Option String)
    (fui : String → List ImportInfo) (nodes : List (Path × ModuleInfo))
    (hnd : (nodes.map Prod.fst).Nodup) :
    ((getSingleFileUnused rt fui nodes).map Prod.fst).Nodup := by
  induction nodes with
  | nil => simp [getSingleFileUnused]
  | cons pm rest ih =>
    rcases List.nodup_cons.mp hnd with ⟨hb, hrest⟩
    unfold getSingleFileUnused
    rw [List.filterMap_cons]
    split
    · exact ih hrest
    · rename_i b heq
      have hb1 : b.1 = pm.1 := by
        split at heq
        · cases heq
        · split at heq
          · cases heq
          · exact congrArg Prod.fst (Option.some_inj.mp heq).symm
      rw [List.map_cons]
      refine List.nodup_cons.mpr ⟨?_, ih hrest⟩
      rw [hb1]
      intro hmem
      exact hb (getSingleFileUnused_keys rt fui rest pm.1 hmem)

theorem assocFind_unused_filterMap (sfu : List (Path × List ImportInfo))
    (R : RMap) (hnd : (sfu.map Prod.fst).Nodup) (f : Path) (b : ImportInfo) :
    (∃ l, assocFind (sfu.filterMap (fun pu =>
        if pu.2.filter (fun imp => decide (imp.name ∈ R pu.1)) = []
        then none
        else some (pu.1, pu.2.filter (fun imp => decide (imp.name ∈ R pu.1))))) f
          = some l ∧ b ∈ l) ↔
      ∃ u, (f, u) ∈ sfu ∧ b ∈ u ∧ b.name ∈ R f := by
  induction sfu with
  | nil => simp [assocFind]
  | cons pu rest ih =>
    rcases List.nodup_cons.mp hnd with ⟨hb, hrest⟩
    rw [List.filterMap_cons]
    by_cases hk : pu.2.filter (fun imp => decide (imp.name ∈ R pu.1)) = []
    · rw [if_pos hk]
      rw [ih hrest]
      constructor
      · rintro ⟨u, hu, hb', hn⟩
        exact ⟨u, List.mem_cons_of_mem _ hu, hb', hn⟩
      · rintro ⟨u, hu, hb', hn⟩
        rcases List.mem_cons.mp hu with heq | hu
        · have hpf : pu.1 = f := congrArg Prod.fst heq.symm
          have hpu2 : pu.2 = u := congrArg Prod.snd heq.symm
          have : b ∈ pu.2.filter (fun imp => decide (imp.name ∈ R pu.1)) :=
            List.mem_filter.mpr ⟨hpu2 ▸ hb', by simp [hpf, hn]⟩
          rw [hk] at this
          cases this
        · exact ⟨u, hu, hb', hn⟩
    · rw [if_neg hk]
      by_cases hpf : pu.1 = f
      · rw [assocFind, if_pos hpf]
        constructor
        · rintro ⟨l, hl, hbl⟩
          have hl' := Option.some_inj.mp hl
          rw [← hl'] at hbl
          have hm := List.mem_filter.mp hbl
          refine ⟨pu.2, ?_, hm.1, ?_⟩
          · rw [← hpf]
            exact List.mem_cons_self _ _
          · have := hm.2
            rw [hpf] at this
            simpa using this
        · rintro ⟨u, hu, hb', hn⟩
          rcases List.mem_cons.mp hu with heq | hu
          · have hpu2 : pu.2 = u := congrArg Prod.snd heq.symm
            refine ⟨_, rfl, ?_⟩
            exact List.mem_filter.mpr ⟨hpu2 ▸ hb', by simp [hpf, hn]⟩
          · exact absurd (List.mem_map.mpr ⟨(f, u), hu, hpf.symm⟩) hb
      · rw [assocFind, if_neg hpf]
        rw [ih hrest]
        constructor
        · rintro ⟨u, hu, hb', hn⟩
          exact ⟨u, List.mem_cons_of_mem _ hu, hb', hn⟩
        · rintro ⟨u, hu, hb', hn⟩
          rcases List.mem_cons.mp hu with heq | hu
          · exact absurd (congrArg Prod.fst heq.symm) hpf
          · exact ⟨u, hu, hb', hn⟩

/-! ### Claim C1 -/

/-- C1: after the cascade stabilizes, (1) for every file `f` the result's
`unused_imports[f]` contains exactly the bindings flagged unused by the
single-file analyzer on `f` whose name is in the final removal map; and
(2) for every name flagged unused in `f`, the name is in the final removal
map iff it is not re-exported from `f` when re-exports are computed against
that final map. -/
theorem claim_C1 (setOrder : List String → List String)
    (rt : Path → Option String) (fui : String → List ImportInfo)
    (g : ImportGraph) (hnd : (g.nodes.map Prod.fst).Nodup) :
    (∀ f b,
      (∃ l, assocFind (analyze setOrder rt fui g).unused_imports f = some l ∧
        b ∈ l) ↔
      (∃ u, (f, u) ∈ getSingleFileUnused rt fui g.nodes ∧ b ∈ u ∧
        b.name ∈ analyzeRemoved g (getSingleFileUnused rt fui g.nodes) f)) ∧
    (∀ f n,
      (∃ u, (f, u) ∈ getSingleFileUnused rt fui g.nodes ∧
        ∃ imp ∈ u, imp.name = n) →
      (n ∈ analyzeRemoved g (getSingleFileUnused rt fui g.nodes) f ↔
        n ∉ assocGetD (findReexportedImports g
          (analyzeRemoved g (getSingleFileUnused rt fui g.nodes))) f)) := by
  constructor
  · intro f b
    rw [analyze_unused_imports]
    exact assocFind_unused_filterMap _ _
      (getSingleFileUnused_keys_nodup rt fui g.nodes hnd) f b
  · intro f n hflag
    constructor
    · intro hmem hre
      exact analyzeRemoved_inv g _ f n hmem hre
    · intro hnre
      rcases hflag with ⟨u, hu, imp, himp, rfl⟩
      have hstable := analyzeRemoved_stable g (getSingleFileUnused rt fui g.nodes)
      have hcond := (cascadePass_flag_false g _ _ hstable).2 (f, u) hu imp himp
      rcases hcond with h | h
      · exact absurd h hnre
      · exact h

/-! ### Claim C10 -/

/-- C10: every list stored in the result's `unused_imports` is non-empty
(a file none of whose flagged bindings is removed is absent from the map
rather than mapped to an empty list), and each stored list is an
order-preserving subsequence of that file's single-file unused list. -/
theorem claim_C10 (setOrder : List String → List String)
    (rt : Path → Option String) (fui : String → List ImportInfo)
    (g : ImportGraph) (f : Path) (l : List ImportInfo)
    (hmem : (f, l) ∈ (analyze setOrder rt fui g).unused_imports) :
    l ≠ [] ∧
      ∃ u, (f, u) ∈ getSingleFileUnused rt fui g.nodes ∧ l.Sublist u := by
  rw [analyze_unused_imports] at hmem
  rcases List.mem_filterMap.mp hmem with ⟨pu, hpu, hsome⟩
  by_cases hk : pu.2.filter (fun imp => decide
      (imp.name ∈ analyzeRemoved g (getSingleFileUnused rt fui g.nodes) pu.1)) = []
  · rw [if_pos hk] at hsome
    cases hsome
  · rw [if_neg hk] at hsome
    have h := Option.some_inj.mp hsome
    have h1 : pu.1 = f := congrArg Prod.fst h
    have h2 : pu.2.filter (fun imp => decide
        (imp.name ∈ analyzeRemoved g (getSingleFileUnused rt fui g.nodes) pu.1)) = l :=
      congrArg Prod.snd h
    subst h1
    refine ⟨h2 ▸ hk, pu.2, ?_, ?_⟩
    · exact hpu
    · rw [← h2]
      exact List.filter_sublist _

/-! ### Implicit re-exports -/

theorem mem_findImplicitReexports (setOrder : List String → List String)
    (g : ImportGraph) (reexported : List (Path × List String))
    (ir : ImplicitReexport)
    (h : ir ∈ findImplicitReexports setOrder g reexported) :
    ∃ fs ∈ reexported, fs.1 = ir.source_file ∧
      ∃ mi, assocFind g.nodes fs.1 = some mi ∧
        notInExports mi.exports ir.import_name = true ∧
        ir.import_name ∈ setOrder fs.2 ∧
        ir.used_by = usedBy g fs.1 ir.import_name := by
  unfold findImplicitReexports at h
  rcases List.mem_flatten.mp h with ⟨block, hbmem, hir⟩
  rcases List.mem_map.mp hbmem with ⟨fs, hfs, rfl⟩
  split at hir
  · cases hir
  · rename_i mi hmi
    rcases List.mem_filterMap.mp hir with ⟨name, hname, hsome⟩
    split at hsome
    · rename_i hexp
      have heq := Option.some_inj.mp hsome
      subst heq
      exact ⟨fs, hfs, rfl, mi, hmi, hexp, hname, rfl⟩
    · cases hsome

/-! ### Claim C3 -/

/-- C3: by default, every `ImplicitReexport` in the analysis result has a
source file that possesses an explicit `__all__` list omitting the name; a
re-exported name in a file with no `__all__` at all is never surfaced. -/
theorem claim_C3 (setOrder : List String → List String)
    (rt : Path → Option String) (fui : String → List ImportInfo)
    (g : ImportGraph) (ir : ImplicitReexport)
    (h : ir ∈ (analyze setOrder rt fui g).implicit_reexports) :
    ∃ mi, assocFind g.nodes ir.source_file = some mi ∧
      ∃ l, mi.exports = some l ∧ ir.import_name ∉ l := by
  have h' : ir ∈ findImplicitReexports setOrder g
      (findReexportedImports g
        (analyzeRemoved g (getSingleFileUnused rt fui g.nodes))) := h
  rcases mem_findImplicitReexports _ _ _ _ h' with
    ⟨fs, -, hsf, mi, hmi, hexp, -, -⟩
  refine ⟨mi, hsf ▸ hmi, ?_⟩
  unfold notInExports at hexp
  split at hexp
  · cases hexp
  · rename_i l hsome
    exact ⟨l, hsome, by simpa using hexp⟩

/-! ### Shared concrete examples

The cascade example: files `a1` and `a2` both import `X` from `b`, which in
turn imports it from elsewhere.  `a1` uses `X`; `a2` and `b` do not use it
locally (the abstract single-file analysis flags it in both).  The cascade
removes `X` from `a2`; `b` keeps it because `a1` still re-exports it. -/

/-- Module info of `b` in the cascade example: imports `X`, defines nothing,
has an empty explicit `__all__`. -/
def egMiB2 : ModuleInfo :=
  { imports := [⟨"X", 1⟩], defined_names := [], exports := some [] }

/-- Module info of `a1`/`a2` in the cascade example. -/
def egMiA : ModuleInfo :=
  { imports := [⟨"X", 1⟩], defined_names := [], exports := none }

/-- Edge `a1 → b` carrying `X`. -/
def egEdgeA1 : ImportEdge :=
  { importer := "a1", imported := some "b", module_name := "b",
    names := ["X"], is_external := false }

/-- Edge `a2 → b` carrying `X`. -/
def egEdgeA2 : ImportEdge :=
  { importer := "a2", imported := some "b", module_name := "b",
    names := ["X"], is_external := false }

/-- The cascade example graph. -/
def egGraphA : ImportGraph :=
  { nodes := [("a1", egMiA), ("a2", egMiA), ("b", egMiB2)],
    edges := [egEdgeA1, egEdgeA2], cycles := [] }

/-- Reading a file yields its path as text. -/
def egRead : Path → Option String := fun p => some p

/-- Single-file analysis for the cascade example: `X` is flagged unused in
`a2` and in `b`, nothing is flagged in `a1`. -/
def egFui : String → List ImportInfo :=
  fun s => if s = "a2" then [⟨"X", 9⟩] else if s = "b" then [⟨"X", 1⟩] else []

/-- The single-file unused map of the cascade example. -/
def egSfu : List (Path × List ImportInfo) :=
  getSingleFileUnused egRead egFui egGraphA.nodes

theorem claim_C1_witness :
    (List.map Prod.fst egGraphA.nodes).Nodup ∧
    ((∃ l, assocFind
        (analyze (fun l => l) egRead egFui egGraphA).unused_imports "a2" =
          some l ∧ (⟨"X", 9⟩ : ImportInfo) ∈ l) ↔
      (∃ u, ("a2", u) ∈ egSfu ∧ (⟨"X", 9⟩ : ImportInfo) ∈ u ∧
        "X" ∈ analyzeRemoved egGraphA egSfu "a2")) ∧
    ("X" ∈ analyzeRemoved egGraphA egSfu "b" ↔
      "X" ∉ assocGetD
        (findReexportedImports egGraphA (analyzeRemoved egGraphA egSfu)) "b") :=
  ⟨by decide,
    (claim_C1 (fun l => l) egRead egFui egGraphA (by decide)).1 "a2" ⟨"X", 9⟩,
    (claim_C1 (fun l => l) egRead egFui egGraphA (by decide)).2 "b" "X"
      ⟨[⟨"X", 1⟩], by decide, ⟨"X", 1⟩, by decide, rfl⟩⟩

theorem claim_C3_witness :
    ∃ mi, assocFind egGraphA.nodes
        (ImplicitReexport.mk "b" "X" ["a1", "a2"]).source_file = some mi ∧
      ∃ l, mi.exports = some l ∧
        (ImplicitReexport.mk "b" "X" ["a1", "a2"]).import_name ∉ l :=
  claim_C3 (fun l => l) egRead egFui egGraphA ⟨"b", "X", ["a1", "a2"]⟩
    (by decide)

theorem claim_C5_witness :
    "X" ∈ removedIter egGraphA egSfu 2 "a2" :=
  claim_C5 egGraphA egSfu 1 "a2" (by decide)

theorem claim_C6_witness :
    rSize egSfu (fun _ => []) <
        rSize egSfu (cascadePass egGraphA egSfu (fun _ => [])).1 ∧
      rSize egSfu (cascadeLoop egGraphA egSfu 3 (fun _ => [])) ≤
        totalUnused egSfu ∧
      (cascadePass egGraphA egSfu (analyzeRemoved egGraphA egSfu)).2 = false :=
  ⟨(claim_C6 egGraphA egSfu).1 (fun _ => [])
      (fun f => List.nodup_nil) (by decide),
    (claim_C6 egGraphA egSfu).2.1 3,
    (claim_C6 egGraphA egSfu).2.2⟩

theorem claim_C10_witness :
    [(⟨"X", 9⟩ : ImportInfo)] ≠ [] ∧
      ∃ u, ("a2", u) ∈ egSfu ∧
        List.Sublist [(⟨"X", 9⟩ : ImportInfo)] u :=
  claim_C10 (fun l => l) egRead egFui egGraphA "a2" [⟨"X", 9⟩] (by decide)

/-! ### Claim C4 -/

/-- C4 evaluation at the failing input: in the cascade example the analysis
reports the implicit re-export `(b, X)` with `used_by` containing `a2`, even
though `a2`'s import of `X` is in `a2`'s final removal set — `a2` imports
the name but does not use it, contradicting the claim (and the code's own
comment that `used_by` collects the files that use the re-exported name). -/
theorem claim_C4_eval :
    ∃ ir ∈ (analyze (fun l => l) egRead egFui egGraphA).implicit_reexports,
      ∃ p ∈ ir.used_by,
        ir.import_name ∈ analyzeRemoved egGraphA egSfu p := by
  decide

/-! ### Claim C7 -/

theorem getSingleFileUnused_congr (rt rt' : Path → Option String)
    (fui : String → List ImportInfo) (nodes : List (Path × ModuleInfo))
    (f : Path) (hfail : rt f = none)
    (hagree : ∀ p, p ≠ f → rt' p = rt p)
    (hskip : rt' f = none ∨ ∃ s, rt' f = some s ∧ fui s = []) :
    getSingleFileUnused rt fui nodes = getSingleFileUnused rt' fui nodes := by
  unfold getSingleFileUnused
  apply List.filterMap_congr
  intro pm _
  by_cases hpf : pm.1 = f
  · rw [hpf, hfail]
    rcases hskip with h | ⟨s, hs, hfu⟩
    · rw [h]
    · rw [hs]
      simp [hfu]
  · rw [hagree pm.1 hpf]

/-- C7: a failure to read one file's source excludes that file from
single-file unused detection — it contributes no `unused_imports` entry —
but never aborts the run: the analysis result is the same as if the file had
simply had no unused imports, and is computed in full for all other files. -/
theorem claim_C7 (setOrder : List String → List String)
    (rt rt' : Path → Option String) (fui : String → List ImportInfo)
    (g : ImportGraph) (f : Path) (hfail : rt f = none)
    (hagree : ∀ p, p ≠ f → rt' p = rt p)
    (hskip : rt' f = none ∨ ∃ s, rt' f = some s ∧ fui s = []) :
    (∀ l, (f, l) ∉ (analyze setOrder rt fui g).unused_imports) ∧
      analyze setOrder rt fui g = analyze setOrder rt' fui g := by
  constructor
  · intro l hmem
    rw [analyze_unused_imports] at hmem
    rcases List.mem_filterMap.mp hmem with ⟨pu, hpu, hsome⟩
    rcases List.mem_filterMap.mp hpu with ⟨pm, hpm, hsfu⟩
    have hpf : pm.1 = f := by
      split at hsome
      · cases hsome
      · have h1 := congrArg Prod.fst (Option.some_inj.mp hsome)
        split at hsfu
        · cases hsfu
        · split at hsfu
          · cases hsfu
          · have h2 := congrArg Prod.fst (Option.some_inj.mp hsfu)
            exact h2.trans h1
    rw [hpf, hfail] at hsfu
    cases hsfu
  · unfold analyze
    rw [getSingleFileUnused_congr rt rt' fui g.nodes f hfail hagree hskip]

/-! ### External usage -/

theorem dedupAppend_ne_nil {β : Type} [DecidableEq β] (s : List β) (v : β) :
    dedupAppend s v ≠ [] := by
  unfold dedupAppend
  by_cases h : v ∈ s
  · rw [if_pos h]
    exact List.ne_nil_of_mem h
  · rw [if_neg h]
    simp

theorem assocFind_assocAdd {α β : Type} [DecidableEq α] [DecidableEq β]
    (mp : List (α × List β)) (k k' : α) (v : β) :
    assocFind (assocAdd mp k v) k' =
      if k' = k then
        some (match assocFind mp k with
          | none => [v]
          | some s => dedupAppend s v)
      else assocFind mp k' := by
  induction mp with
  | nil =>
    simp only [assocAdd, assocFind]
    by_cases h : k = k'
    · rw [if_pos h, if_pos h.symm]
    · rw [if_neg h, if_neg (fun hh => h hh.symm)]
  | cons q rest ih =>
    by_cases hq : q.1 = k
    · rw [assocAdd, if_pos hq]
      by_cases hk' : q.1 = k'
      · have hkk : k' = k := hk'.symm.trans hq
        simp only [assocFind, if_pos hk', if_pos hkk, if_pos hq]
      · have hkk : ¬ (k' = k) := fun h => hk' (hq.trans h.symm)
        simp only [assocFind, if_neg hk', if_neg hkk]
    · rw [assocAdd, if_neg hq]
      by_cases hk' : q.1 = k'
      · have hkk : ¬ (k' = k) := fun h => hq (hk'.trans h)
        simp only [assocFind, if_pos hk', if_neg hkk]
      · simp only [assocFind, if_neg hk', if_neg hq, ih]

theorem assocFind_assocAdd_none {α β : Type} [DecidableEq α] [DecidableEq β]
    (mp : List (α × List β)) (k k' : α) (v : β) :
    assocFind (assocAdd mp k v) k' = none ↔
      assocFind mp k' = none ∧ k' ≠ k := by
  rw [assocFind_assocAdd]
  by_cases h : k' = k
  · simp [h]
  · simp [h]

theorem assocAdd_values_ne_nil {α β : Type} [DecidableEq α] [DecidableEq β]
    (mp : List (α × List β)) (k : α) (v : β)
    (hinv : ∀ k' S, assocFind mp k' = some S → S ≠ [])
    (k' : α) (S : List β) (h : assocFind (assocAdd mp k v) k' = some S) :
    S ≠ [] := by
  rw [assocFind_assocAdd] at h
  by_cases hk : k' = k
  · rw [if_pos hk] at h
    have h' := Option.some_inj.mp h
    rw [← h']
    cases hfind : assocFind mp k with
    | none => simp
    | some s => exact dedupAppend_ne_nil s v
  · rw [if_neg hk] at h
    exact hinv k' S h

theorem mem_assocGetD_aggregate (edges : List ImportEdge)
    (init : List (String × List Path)) (m : String) (p : Path) :
    p ∈ assocGetD (edges.foldl (fun usage e =>
        if e.is_external then assocAdd usage e.module_name e.importer
        else usage) init) m ↔
      p ∈ assocGetD init m ∨
        ∃ e ∈ edges, e.is_external = true ∧ e.module_name = m ∧
          e.importer = p := by
  induction edges generalizing init with
  | nil => simp
  | cons e rest ih =>
    rw [List.foldl_cons, ih]
    cases hext : e.is_external with
    | false =>
      simp only [Bool.false_eq_true, if_false]
      constructor
      · rintro (h | ⟨e', he', hc⟩)
        · exact Or.inl h
        · exact Or.inr ⟨e', List.mem_cons_of_mem _ he', hc⟩
      · rintro (h | ⟨e', he', hc⟩)
        · exact Or.inl h
        · rcases List.mem_cons.mp he' with rfl | he'
          · exact absurd hc.1 (by simp [hext])
          · exact Or.inr ⟨e', he', hc⟩
    | true =>
      simp only [if_true]
      rw [mem_assocGetD_assocAdd]
      constructor
      · rintro ((h | ⟨hm, hp⟩) | ⟨e', he', hc⟩)
        · exact Or.inl h
        · exact Or.inr ⟨e, List.mem_cons_self _ _, hext, hm, hp.symm⟩
        · exact Or.inr ⟨e', List.mem_cons_of_mem _ he', hc⟩
      · rintro (h | ⟨e', he', hc⟩)
        · exact Or.inl (Or.inl h)
        · rcases List.mem_cons.mp he' with rfl | he'
          · exact Or.inl (Or.inr ⟨hc.2.1, hc.2.2.symm⟩)
          · exact Or.inr ⟨e', he', hc⟩

theorem aggregate_find_none (edges : List ImportEdge)
    (init : List (String × List Path)) (m : String) :
    assocFind (edges.foldl (fun usage e =>
        if e.is_external then assocAdd usage e.module_name e.importer
        else usage) init) m = none ↔
      assocFind init m = none ∧
        ¬ ∃ e ∈ edges, e.is_external = true ∧ e.module_name = m := by
  induction edges generalizing init with
  | nil => simp
  | cons e rest ih =>
    rw [List.foldl_cons, ih]
    cases hext : e.is_external with
    | false =>
      simp only [Bool.false_eq_true, if_false]
      constructor
      · rintro ⟨h1, h2⟩
        refine ⟨h1, ?_⟩
        rintro ⟨e', he', hc⟩
        rcases List.mem_cons.mp he' with rfl | he'
        · exact absurd hc.1 (by simp [hext])
        · exact h2 ⟨e', he', hc⟩
      · rintro ⟨h1, h2⟩
        exact ⟨h1, fun ⟨e', he', hc⟩ => h2 ⟨e', List.mem_cons_of_mem _ he', hc⟩⟩
    | true =>
      simp only [if_true]
      rw [assocFind_assocAdd_none]
      constructor
      · rintro ⟨⟨h1, hne⟩, h2⟩
        refine ⟨h1, ?_⟩
        rintro ⟨e', he', hc⟩
        rcases List.mem_cons.mp he' with rfl | he'
        · exact hne hc.2.symm
        · exact h2 ⟨e', he', hc⟩
      · rintro ⟨h1, h2⟩
        refine ⟨⟨h1, fun h => h2 ⟨e, List.mem_cons_self _ _, hext, h.symm⟩⟩, ?_⟩
        rintro ⟨e', he', hc⟩
        exact h2 ⟨e', List.mem_cons_of_mem _ he', hc⟩

theorem aggregate_values_ne_nil (edges : List ImportEdge)
    (init : List (String × List Path))
    (hinv : ∀ k S, assocFind init k = some S → S ≠ []) (m : String)
    (S : List Path)
    (h : assocFind (edges.foldl (fun usage e =>
        if e.is_external then assocAdd usage e.module_name e.importer
        else usage) init) m = some S) : S ≠ [] := by
  induction edges generalizing init with
  | nil => exact hinv m S h
  | cons e rest ih =>
    rw [List.foldl_cons] at h
    cases hext : e.is_external with
    | false =>
      rw [hext] at h
      simp only [Bool.false_eq_true, if_false] at h
      exact ih init hinv h
    | true =>
      rw [hext] at h
      simp only [if_true] at h
      exact ih _ (fun k S2 h2 =>
        assocAdd_values_ne_nil init e.module_name e.importer hinv k S2 h2) h

/-! ### Claim C8 -/

/-- C8: `external_usage` maps a module name `m` to a set `S` iff `S` is
non-empty and is exactly the set of importer paths of graph edges marked
external whose `module_name` equals `m`; edges resolved inside the project
contribute nothing. -/
theorem claim_C8 (setOrder : List String → List String)
    (rt : Path → Option String) (fui : String → List ImportInfo)
    (g : ImportGraph) (m : String) :
    (∀ p, p ∈ assocGetD (analyze setOrder rt fui g).external_usage m ↔
      ∃ e ∈ g.edges, e.is_external = true ∧ e.module_name = m ∧
        e.importer = p) ∧
    (assocFind (analyze setOrder rt fui g).external_usage m ≠ none ↔
      ∃ e ∈ g.edges, e.is_external = true ∧ e.module_name = m) ∧
    (∀ S, assocFind (analyze setOrder rt fui g).external_usage m = some S →
      S ≠ []) := by
  have heu : (analyze setOrder rt fui g).external_usage =
      aggregateExternalUsage g.edges := rfl
  rw [heu]
  refine ⟨?_, ?_, ?_⟩
  · intro p
    rw [aggregateExternalUsage, mem_assocGetD_aggregate]
    simp [assocGetD, assocFind]
  · rw [aggregateExternalUsage]
    rw [Ne, aggregate_find_none]
    simp [assocFind]
  · intro S h
    rw [aggregateExternalUsage] at h
    exact aggregate_values_ne_nil g.edges [] (by intro k S2 h2; cases h2) m S h

/-! ### Claim C9 -/

theorem findImplicitReexports_perm (σ1 σ2 : List String → List String)
    (g : ImportGraph) (reexported : List (Path × List String))
    (h1 : ∀ l, (σ1 l).Perm l) (h2 : ∀ l, (σ2 l).Perm l) :
    (findImplicitReexports σ1 g reexported).Perm
      (findImplicitReexports σ2 g reexported) := by
  unfold findImplicitReexports
  induction reexported with
  | nil => exact List.Perm.refl _
  | cons fs rest ih =>
    rw [List.map_cons, List.map_cons, List.flatten_cons, List.flatten_cons]
    refine List.Perm.append ?_ ih
    cases assocFind g.nodes fs.1 with
    | none => exact List.Perm.refl _
    | some mi => exact ((h1 fs.2).trans (h2 fs.2).symm).filterMap _

/-- C9 (amended): two runs over the same import graph agree on
`unused_imports`, `external_usage` and `circular_imports` exactly, and on
`implicit_reexports` up to permutation, for any two admissible iteration
orders of the per-file re-exported-name sets. -/
theorem claim_C9_order_free (σ1 σ2 : List String → List String)
    (rt : Path → Option String) (fui : String → List ImportInfo)
    (g : ImportGraph) (h1 : ∀ l, (σ1 l).Perm l) (h2 : ∀ l, (σ2 l).Perm l) :
    (analyze σ1 rt fui g).unused_imports =
        (analyze σ2 rt fui g).unused_imports ∧
      (analyze σ1 rt fui g).implicit_reexports.Perm
        (analyze σ2 rt fui g).implicit_reexports ∧
      (analyze σ1 rt fui g).external_usage =
        (analyze σ2 rt fui g).external_usage ∧
      (analyze σ1 rt fui g).circular_imports =
        (analyze σ2 rt fui g).circular_imports :=
  ⟨rfl, findImplicitReexports_perm σ1 σ2 g _ h1 h2, rfl, rfl⟩

/-! Example for the C9 counterexample: `a` imports `X` and `Y` from `b` and
uses both; `b` imports them from elsewhere without using them locally, and
declares an empty `__all__`, so both names are implicit re-exports of `b`
and the result list holds two entries whose order follows the iteration
order of the set of re-exported names. -/

/-- Module info of `b`: imports `X` and `Y`, defines nothing, `__all__ = []`. -/
def egMiBXY : ModuleInfo :=
  { imports := [⟨"X", 1⟩, ⟨"Y", 2⟩], defined_names := [], exports := some [] }

/-- Module info of `a`. -/
def egMiAXY : ModuleInfo :=
  { imports := [⟨"X", 1⟩, ⟨"Y", 2⟩], defined_names := [], exports := none }

/-- Edge `a → b` carrying `X` and `Y`. -/
def egEdgeAB : ImportEdge :=
  { importer := "a", imported := some "b", module_name := "b",
    names := ["X", "Y"], is_external := false }

/-- The two-reexport example graph. -/
def egGraphB : ImportGraph :=
  { nodes := [("a", egMiAXY), ("b", egMiBXY)], edges := [egEdgeAB],
    cycles := [] }

/-- Single-file analysis for the two-reexport example: `X` and `Y` are
flagged unused in `b` only. -/
def egFuiB : String → List ImportInfo :=
  fun s => if s = "b" then [⟨"X", 1⟩, ⟨"Y", 2⟩] else []

/-- C9 counterexample: both the identity and `List.reverse` are admissible
set-iteration orders, yet the two runs of `analyze` over the same graph
return different `CrossFileResult` values — the `implicit_reexports` lists
come out in different orders. -/
theorem claim_C9_counterexample :
    (∀ l : List String, List.Perm ((fun l => l) l) l) ∧
      (∀ l : List String, List.Perm ((fun l => l.reverse) l) l) ∧
      analyze (fun l => l) egRead egFuiB egGraphB ≠
        analyze (fun l => l.reverse) egRead egFuiB egGraphB :=
  ⟨fun l => List.Perm.refl l, fun l => List.reverse_perm l, by decide⟩

theorem claim_C9_witness :
    (analyze (fun l => l) egRead egFuiB egGraphB).unused_imports =
        (analyze (fun l => l.reverse) egRead egFuiB egGraphB).unused_imports ∧
      (analyze (fun l => l) egRead egFuiB egGraphB).implicit_reexports.Perm
        (analyze (fun l => l.reverse) egRead egFuiB egGraphB).implicit_reexports ∧
      (analyze (fun l => l) egRead egFuiB egGraphB).external_usage =
        (analyze (fun l => l.reverse) egRead egFuiB egGraphB).external_usage ∧
      (analyze (fun l => l) egRead egFuiB egGraphB).circular_imports =
        (analyze (fun l => l.reverse) egRead egFuiB egGraphB).circular_imports :=
  claim_C9_order_free (fun l => l) (fun l => l.reverse) egRead egFuiB egGraphB
    (fun l => List.Perm.refl l) (fun l => List.reverse_perm l)

/-- Reading in the cascade example with the read of `a2` failing. -/
def egReadFail : Path → Option String :=
  fun p => if p = "a2" then none else some p

/-- Reading in the cascade example with `a2` readable but contributing no
unused imports. -/
def egReadSkip : Path → Option String :=
  fun p => if p = "a2" then some "skipped" else some p

theorem claim_C7_witness :
    egReadFail "a2" = none ∧
      (∀ l, ("a2", l) ∉
        (analyze (fun l => l) egReadFail egFui egGraphA).unused_imports) ∧
      analyze (fun l => l) egReadFail egFui egGraphA =
        analyze (fun l => l) egReadSkip egFui egGraphA :=
  ⟨by decide,
    (claim_C7 (fun l => l) egReadFail egReadSkip egFui egGraphA "a2"
      (by decide) (fun p hp => by simp [egReadFail, egReadSkip, hp])
      (Or.inr ⟨"skipped", by decide, by decide⟩)).1,
    (claim_C7 (fun l => l) egReadFail egReadSkip egFui egGraphA "a2"
      (by decide) (fun p hp => by simp [egReadFail, egReadSkip, hp])
      (Or.inr ⟨"skipped", by decide, by decide⟩)).2⟩

/-- An external edge: `a` imports the external module `os`. -/
def egEdgeExt : ImportEdge :=
  { importer := "a", imported := none, module_name := "os", names := [],
    is_external := true }

/-- A graph with a single external edge. -/
def egGraphExt : ImportGraph :=
  { nodes := [], edges := [egEdgeExt], cycles := [] }

theorem claim_C8_witness :
    ("a" ∈ assocGetD
        (analyze (fun l => l) egRead egFui egGraphExt).external_usage "os" ↔
      ∃ e ∈ egGraphExt.edges, e.is_external = true ∧
        e.module_name = "os" ∧ e.importer = "a") ∧
      ∀ S, assocFind
          (analyze (fun l => l) egRead egFui egGraphExt).external_usage "os" =
            some S → S ≠ [] :=
  ⟨(claim_C8 (fun l => l) egRead egFui egGraphExt "os").1 "a",
    (claim_C8 (fun l => l) egRead egFui egGraphExt "os").2.2⟩

end RemoveUnusedImports
